import Mathlib

/-!
Shallow embedding of the `link-header` crate (src/lib.rs): parsing,
in-memory representation, and serialization of the HTTP Link header.

Strings are modelled as lists of characters (`Str`); Rust string
primitives (`split`, `split_once`, `strip_prefix` as `stripLead`,
`strip_suffix` as `stripTrail`, `trim`) are embedded as executable
list functions below.  The URI type of the `http` crate is an external
collaborator; the development is parameterized over an abstract URI
sub-system (`UriSys`), and a concrete instance (`specUri`) is used to
evaluate concrete inputs.  Fallible Rust code returning
`Result<_, InvalidLink>` is embedded as `Except InvalidLink _`; the
`unwrap` inside `encode` (which can panic) is embedded as `Option`.
-/

namespace LinkHeader

/-- Model of Rust string slices: a list of characters. -/
abbrev Str := List Char

/-- Coerce a Lean string literal to the model type. -/
def str (s : String) : Str := s.data

/-- Model of Rust whitespace for `str::trim` (the inputs of interest are
ASCII, where Rust's Unicode white-space and this set agree). -/
def isWsChar (c : Char) : Bool := c = ' ' || c = '\t' || c = '\n' || c = '\r'

/-- Model of the leading-edge half of `str::trim`. -/
def trimLead (s : Str) : Str := s.dropWhile isWsChar

/-- Model of the trailing-edge half of `str::trim`. -/
def trimTrail (s : Str) : Str := (s.reverse.dropWhile isWsChar).reverse

/-- Model of Rust `str::trim`: drop whitespace from both ends. -/
def trimStr (s : Str) : Str := trimTrail (trimLead s)

/-- Model of Rust `str::split_once(c)`: split at the first occurrence of
the character `c`, returning the parts before and after it. -/
def splitOnce (c : Char) : Str → Option (Str × Str)
  | [] => none
  | x :: xs =>
    if x = c then some ([], xs)
    else
      match splitOnce c xs with
      | none => none
      | some (a, b) => some (x :: a, b)

/-- Model of Rust `str::split(c)`: all the pieces between occurrences of
`c`, keeping empty pieces (the empty string splits to one empty piece). -/
def splitAll (c : Char) : Str → List Str
  | [] => [[]]
  | x :: xs =>
    if x = c then [] :: splitAll c xs
    else
      match splitAll c xs with
      | [] => [[x]]
      | a :: rest => (x :: a) :: rest

/-- Model of Rust `str::strip_prefix(c)` for a single character. -/
def stripLead (c : Char) : Str → Option Str
  | [] => none
  | x :: xs => if x = c then some xs else none

/-- Model of Rust `str::strip_suffix(c)` for a single character. -/
def stripTrail (c : Char) (s : Str) : Option Str :=
  (stripLead c s.reverse).map List.reverse

/-- The external URI sub-system of the `http` crate, as the black-box
capability the source uses: parse a URI reference from text (fallible)
and render one back to text (`Display`). -/
structure UriSys where
  Uri : Type
  parse : Str → Option Uri
  render : Uri → Str

/-- Model of the zero-data error marker `InvalidLink` of src/lib.rs. -/
inductive InvalidLink where
  | mk
deriving DecidableEq

/-- Model of `headers::Error` as the source observes it: the only value
the source ever produces or maps to is `headers::Error::invalid()`. -/
inductive HeaderError where
  | invalid
deriving DecidableEq

/-- Model of `LinkItem` of src/lib.rs: a URI plus a parameter map.  The
Rust `HashMap<String, String>` is modelled as an association list with
unique keys; the list order stands for one possible iteration order. -/
structure LinkItem (U : UriSys) where
  uri : U.Uri
  params : List (Str × Str)

/-- Model of `HashMap::insert`: overwrite the value of an existing key,
otherwise add the new binding. -/
def insertParam (ps : List (Str × Str)) (k v : Str) : List (Str × Str) :=
  if ps.any (fun p => p.1 = k) then ps.map (fun p => if p.1 = k then (k, v) else p)
  else ps ++ [(k, v)]

/-- Model of `HashMap::get` on the association list. -/
def lookupParam (ps : List (Str × Str)) (k : Str) : Option Str :=
  match ps with
  | [] => none
  | p :: rest => if p.1 = k then some p.2 else lookupParam rest k

/-- Model of `LinkItem::param`: look up a single parameter value. -/
def LinkItem.param {U : UriSys} (it : LinkItem U) (name : Str) : Option Str :=
  lookupParam it.params name

/-- Model of `LinkItem::new`: a URI with an empty parameter map. -/
def LinkItem.new (U : UriSys) (uri : U.Uri) : LinkItem U := ⟨uri, []⟩

/-- Model of `LinkItem::with_param`: collect the given name/value pairs
into the parameter map (`HashMap::from_iter`, last occurrence wins). -/
def LinkItem.withParam (U : UriSys) (uri : U.Uri) (ps : List (Str × Str)) : LinkItem U :=
  ⟨uri, ps.foldl (fun acc p => insertParam acc p.1 p.2) []⟩

/-- Model of the parameter loop of `LinkItem::from_str`: for each
fragment, trim it, split on the first `=` (failing with InvalidLink when
no `=` is present) and insert the pair into the map. -/
def parseParamsAux (acc : List (Str × Str)) : List Str → Except InvalidLink (List (Str × Str))
  | [] => .ok acc
  | frag :: rest =>
    match splitOnce '=' (trimStr frag) with
    | none => .error .mk
    | some (name, data) => parseParamsAux (insertParam acc name data) rest

/-- Body of `LinkItem::from_str` after the destructuring
`let (link, parameters) = ...`: strip `<` and `>` from the head, parse
the URI, then parse the parameter fragments of the optional tail. -/
def fromStrParts (U : UriSys) (link : Str) (parameters : Option Str) :
    Except InvalidLink (LinkItem U) :=
  match stripLead '<' link with
  | none => .error .mk
  | some l1 =>
    match stripTrail '>' l1 with
    | none => .error .mk
    | some l2 =>
      match U.parse l2 with
      | none => .error .mk
      | some uri =>
        match parameters with
        | none => .ok ⟨uri, []⟩
        | some tail =>
          match parseParamsAux [] (splitAll ';' tail) with
          | .error e => .error e
          | .ok ps => .ok ⟨uri, ps⟩

/-- Model of `LinkItem::from_str` of src/lib.rs: split the segment on the
first `;` into head and optional parameter tail, then process the parts. -/
def LinkItem.fromStr (U : UriSys) (s : Str) : Except InvalidLink (LinkItem U) :=
  match splitOnce ';' s with
  | some (a, b) => fromStrParts U a (some b)
  | none => fromStrParts U s none

/-- Text of one formatted parameter of `LinkItem`'s `Display`: a literal
semicolon and space, the name, `=`, the value. -/
def paramText (p : Str × Str) : Str := ';' :: ' ' :: (p.1 ++ '=' :: p.2)

/-- Model of `LinkItem`'s `Display`: angle-bracketed URI followed by the
formatted parameters in map-iteration order. -/
def LinkItem.format (U : UriSys) (it : LinkItem U) : Str :=
  '<' :: (U.render it.uri ++ '>' :: (it.params.map paramText).flatten)

/-- Model of `Link` of src/lib.rs: an ordered sequence of items. -/
structure Link (U : UriSys) where
  items : List (LinkItem U)

/-- Model of `Iterator::collect::<Result<_, _>>`: collect the results in
order, failing at the first error. -/
def mapCollect {U : UriSys} (f : Str → Except InvalidLink (LinkItem U)) :
    List Str → Except InvalidLink (List (LinkItem U))
  | [] => .ok []
  | x :: xs =>
    match f x with
    | .error e => .error e
    | .ok a =>
      match mapCollect f xs with
      | .error e => .error e
      | .ok rest => .ok (a :: rest)

/-- Model of `Link::from_str` of src/lib.rs: split the input on `,` and
parse every segment, failing the whole parse if any segment fails. -/
def Link.fromStr (U : UriSys) (s : Str) : Except InvalidLink (Link U) :=
  match mapCollect (LinkItem.fromStr U) (splitAll ',' s) with
  | .error e => .error e
  | .ok items => .ok ⟨items⟩

/-- Join of the formatted items with a single literal comma, as in
`Link`'s `Display`. -/
def joinComma : List Str → Str
  | [] => []
  | [x] => x
  | x :: y :: rest => x ++ ',' :: joinComma (y :: rest)

/-- Model of `Link`'s `Display`: the items' formatted texts joined with a
single `,`, the empty string for a zero-item Link. -/
def Link.format (U : UriSys) (l : Link U) : Str :=
  joinComma (l.items.map (LinkItem.format U))

/-- Model of `http::HeaderValue` at the level the source observes: its
character content. -/
abbrev HeaderVal := Str

/-- Validity test of `HeaderValue::to_str` (visible ASCII or tab): a
character outside this set makes `to_str` fail. -/
def visibleAsciiChar (c : Char) : Bool := (32 ≤ c.toNat && c.toNat < 127) || c.toNat = 9

/-- Model of `HeaderValue::to_str`: succeeds only on visible-ASCII text. -/
def headerValueToStr (v : HeaderVal) : Option Str :=
  if v.all visibleAsciiChar then some v else none

/-- Validity test of `HeaderValue::from_str`: every byte at least 32 and
not 127, or tab (characters at code 128 and above encode to bytes of at
least 128, which pass). -/
def headerValueOkChar (c : Char) : Bool := (32 ≤ c.toNat && c.toNat ≠ 127) || c.toNat = 9

/-- Model of `HeaderValue::from_str`: fails on a control character. -/
def headerValueFromStr (s : Str) : Option HeaderVal :=
  if s.all headerValueOkChar then some s else none

/-- Model of `Header::decode` for `Link` of src/lib.rs: no value at all
is `headers::Error::invalid()`; otherwise only the first value is used,
converted to text (failure mapped to InvalidLink) and parsed, with
InvalidLink mapped to `headers::Error::invalid()`. -/
def Link.decode (U : UriSys) (values : List HeaderVal) : Except HeaderError (Link U) :=
  match values with
  | [] => .error .invalid
  | v :: _ =>
    match headerValueToStr v with
    | none => .error .invalid
    | some s =>
      match Link.fromStr U s with
      | .error _ => .error .invalid
      | .ok l => .ok l

/-- Model of `Header::encode` for `Link` of src/lib.rs: format the Link,
build a header value from the text (`unwrap`: `none` models the panic),
and append exactly that one value to the output collection. -/
def Link.encode (U : UriSys) (l : Link U) (values : List HeaderVal) : Option (List HeaderVal) :=
  match headerValueFromStr (Link.format U l) with
  | none => none
  | some v => some (values ++ [v])

/-- Characters the concrete URI model accepts (RFC 3986 URI characters,
as `http::Uri` accepts them; the apostrophe is also a URI character but
no input here uses it). -/
def uriChar (c : Char) : Bool :=
  c.isAlphanum ||
    ([':', '/', '?', '#', '[', ']', '@', '!', '$', '&', '(', ')', '*', '+',
      ',', ';', '=', '-', '.', '_', '~', '%'] : List Char).contains c

/-- Modelled from the spec: validity of a URI reference for the concrete
URI sub-system instance (non-empty, URI characters only), mirroring the
out-of-scope `http::Uri` parser on the concrete inputs used here. -/
def uriOk (s : Str) : Bool := !s.isEmpty && s.all uriChar

/-- Modelled from the spec: a concrete instance of the black-box URI
sub-system, used to evaluate the development on concrete inputs.  A URI
is its own text; parsing validates, rendering is the identity. -/
abbrev specUri : UriSys where
  Uri := Str
  parse := fun s => if uriOk s then some s else none
  render := id

/-! Basic lemmas about the string primitives. -/

lemma splitAll_ne_nil (c : Char) (s : Str) : splitAll c s ≠ [] := by
  induction s with
  | nil => simp [splitAll]
  | cons x xs ih =>
    simp only [splitAll]
    split
    · simp
    · cases h : splitAll c xs with
      | nil => simp
      | cons a rest => simp

lemma splitOnce_eq_none (c : Char) (s : Str) (h : c ∉ s) : splitOnce c s = none := by
  induction s with
  | nil => rfl
  | cons x xs ih =>
    simp only [splitOnce]
    rw [if_neg, ih (fun hmem => h (List.mem_cons_of_mem _ hmem))]
    intro hx
    exact h (hx ▸ List.mem_cons_self x xs)

lemma splitOnce_append (c : Char) (a b : Str) (h : c ∉ a) :
    splitOnce c (a ++ c :: b) = some (a, b) := by
  induction a with
  | nil => simp [splitOnce]
  | cons x xs ih =>
    simp only [List.cons_append, List.append_eq, splitOnce]
    rw [if_neg, ih (fun hmem => h (List.mem_cons_of_mem _ hmem))]
    intro hx
    exact h (hx ▸ List.mem_cons_self x xs)

lemma splitOnce_not_mem (c : Char) (s a b : Str) (h : splitOnce c s = some (a, b)) :
    c ∉ a := by
  induction s generalizing a b with
  | nil => simp [splitOnce] at h
  | cons x xs ih =>
    simp only [splitOnce] at h
    by_cases hx : x = c
    · rw [if_pos hx] at h
      injection h with h2
      cases h2
      simp
    · rw [if_neg hx] at h
      cases h2 : splitOnce c xs with
      | none => rw [h2] at h; exact absurd h (by simp)
      | some p =>
        rw [h2] at h
        obtain ⟨a2, b2⟩ := p
        injection h with h3
        cases h3
        intro hmem
        rcases List.mem_cons.mp hmem with h4 | h4
        · exact hx h4.symm
        · exact ih _ _ h2 h4

lemma splitAll_no_sep (c : Char) (s : Str) (h : c ∉ s) : splitAll c s = [s] := by
  induction s with
  | nil => rfl
  | cons x xs ih =>
    simp only [splitAll]
    rw [if_neg, ih (fun hmem => h (List.mem_cons_of_mem _ hmem))]
    intro hx
    exact h (hx ▸ List.mem_cons_self x xs)

lemma splitAll_append (c : Char) (a b : Str) (h : c ∉ a) :
    splitAll c (a ++ c :: b) = a :: splitAll c b := by
  induction a with
  | nil => simp [splitAll]
  | cons x xs ih =>
    simp only [List.cons_append, List.append_eq, splitAll]
    rw [if_neg, ih (fun hmem => h (List.mem_cons_of_mem _ hmem))]
    intro hx
    exact h (hx ▸ List.mem_cons_self x xs)

lemma stripLead_cons (c : Char) (s : Str) : stripLead c (c :: s) = some s := by
  simp [stripLead]

lemma stripTrail_snoc (c : Char) (s : Str) : stripTrail c (s ++ [c]) = some s := by
  simp [stripTrail, stripLead]

lemma trimLead_ws_cons (c : Char) (s : Str) (h : isWsChar c = true) :
    trimLead (c :: s) = trimLead s := by
  simp [trimLead, List.dropWhile_cons, h]

lemma trimLead_no_ws (s : Str) (h : ∀ x ∈ s, isWsChar x = false) : trimLead s = s := by
  cases s with
  | nil => rfl
  | cons x xs => simp [trimLead, List.dropWhile_cons, h x (List.mem_cons_self x xs)]

lemma trimTrail_no_ws (s : Str) (h : ∀ x ∈ s, isWsChar x = false) : trimTrail s = s := by
  unfold trimTrail
  rw [show s.reverse.dropWhile isWsChar = s.reverse from ?_, List.reverse_reverse]
  cases h2 : s.reverse with
  | nil => rfl
  | cons x xs =>
    have hx : x ∈ s := by
      rw [← List.mem_reverse, h2]
      exact List.mem_cons_self x xs
    simp [List.dropWhile_cons, h x hx]

lemma trimStr_no_ws (s : Str) (h : ∀ x ∈ s, isWsChar x = false) : trimStr s = s := by
  unfold trimStr
  rw [trimLead_no_ws s h, trimTrail_no_ws s h]

lemma trimStr_space_cons (t : Str) (h : ∀ x ∈ t, isWsChar x = false) :
    trimStr (' ' :: t) = t := by
  unfold trimStr
  rw [trimLead_ws_cons ' ' t rfl, trimLead_no_ws t h, trimTrail_no_ws t h]

lemma alnum_not_ws {c : Char} (h : c.isAlphanum = true) : isWsChar c = false := by
  cases hb : isWsChar c with
  | false => rfl
  | true =>
    exfalso
    simp only [isWsChar, Bool.or_eq_true, decide_eq_true_eq] at hb
    rcases hb with ((rfl | rfl) | rfl) | rfl <;> exact absurd h (by decide)

lemma alnum_ne_special {c : Char} (h : c.isAlphanum = true) :
    c ≠ ';' ∧ c ≠ ',' ∧ c ≠ '=' := by
  refine ⟨?_, ?_, ?_⟩ <;> rintro rfl <;> exact absurd h (by decide)

/-! Lemmas about parameter formatting and re-parsing. -/

/-- The whitespace-free parameter fragment as the splitting of the
formatted tail produces it: a space, the name, `=`, the value. -/
def fragOf (p : Str × Str) : Str := ' ' :: (p.1 ++ '=' :: p.2)

/-- Both components of a parameter pair are ASCII alphanumeric. -/
abbrev alnumPair (p : Str × Str) : Prop :=
  (∀ c ∈ p.1, c.isAlphanum = true) ∧ (∀ c ∈ p.2, c.isAlphanum = true)

lemma paramText_eq_fragOf (p : Str × Str) : paramText p = ';' :: fragOf p := rfl

lemma fragOf_no_semi (p : Str × Str) (h : alnumPair p) : ';' ∉ fragOf p := by
  intro hmem
  simp only [fragOf, List.mem_cons, List.mem_append] at hmem
  rcases hmem with h1 | (h1 | h1)
  · exact absurd h1 (by decide)
  · exact (alnum_ne_special (h.1 _ h1)).1 rfl
  · rcases h1 with h2 | h2
    · exact absurd h2 (by decide)
    · exact (alnum_ne_special (h.2 _ h2)).1 rfl

lemma fragOf_trim (p : Str × Str) (h : alnumPair p) :
    trimStr (fragOf p) = p.1 ++ '=' :: p.2 := by
  unfold fragOf
  refine trimStr_space_cons _ ?_
  intro x hx
  simp only [List.mem_append, List.mem_cons] at hx
  rcases hx with h1 | (h1 | h1)
  · exact alnum_not_ws (h.1 _ h1)
  · subst h1; rfl
  · exact alnum_not_ws (h.2 _ h1)

lemma fragOf_split (p : Str × Str) (h : alnumPair p) :
    splitOnce '=' (trimStr (fragOf p)) = some (p.1, p.2) := by
  rw [fragOf_trim p h]
  refine splitOnce_append '=' p.1 p.2 ?_
  intro hmem
  exact (alnum_ne_special (h.1 _ hmem)).2.2 rfl

lemma splitAll_semi_block (p : Str × Str) (ps : List (Str × Str))
    (h : ∀ q ∈ p :: ps, alnumPair q) :
    splitAll ';' (fragOf p ++ (ps.map paramText).flatten) = (p :: ps).map fragOf := by
  induction ps generalizing p with
  | nil =>
    simp only [List.map_nil, List.flatten_nil, List.append_nil, List.map_cons]
    exact splitAll_no_sep ';' (fragOf p) (fragOf_no_semi p (h p (List.mem_cons_self p [])))
  | cons q qs ih =>
    have hblock : fragOf p ++ ((q :: qs).map paramText).flatten
        = fragOf p ++ ';' :: (fragOf q ++ (qs.map paramText).flatten) := by
      simp [paramText_eq_fragOf]
    rw [hblock,
      splitAll_append ';' _ _ (fragOf_no_semi p (h p (List.mem_cons_self p _))),
      ih q (fun r hr => h r (List.mem_cons_of_mem p hr))]
    simp

lemma insertParam_not_mem (ps : List (Str × Str)) (k v : Str)
    (h : ∀ q ∈ ps, q.1 ≠ k) : insertParam ps k v = ps ++ [(k, v)] := by
  unfold insertParam
  rw [if_neg]
  intro hany
  rw [List.any_eq_true] at hany
  obtain ⟨q, hq, hqk⟩ := hany
  exact h q hq (by simpa using hqk)

lemma parseParamsAux_frags (ps : List (Str × Str)) :
    ∀ acc : List (Str × Str),
      (∀ q ∈ ps, alnumPair q) →
      (∀ q ∈ ps, ∀ r ∈ acc, r.1 ≠ q.1) →
      ((ps.map Prod.fst).Nodup) →
      parseParamsAux acc (ps.map fragOf) = .ok (acc ++ ps) := by
  induction ps with
  | nil => intro acc _ _ _; simp [parseParamsAux]
  | cons p rest ih =>
    intro acc halnum hdisj hnd
    have hp : alnumPair p := halnum p (List.mem_cons_self p rest)
    simp only [List.map_cons, parseParamsAux, fragOf_split p hp]
    rw [insertParam_not_mem acc p.1 p.2 (hdisj p (List.mem_cons_self p rest))]
    rw [ih (acc ++ [(p.1, p.2)])
      (fun q hq => halnum q (List.mem_cons_of_mem p hq))
      ?_ (List.nodup_cons.mp (by simpa using hnd)).2]
    · simp
    · intro q hq r hr
      rcases List.mem_append.mp hr with h1 | h1
      · exact hdisj q (List.mem_cons_of_mem p hq) r h1
      · have h2 : r = (p.1, p.2) := by simpa using h1
        subst h2
        have h3 : p.1 ∉ rest.map Prod.fst := (List.nodup_cons.mp (by simpa using hnd)).1
        intro h4
        exact h3 (h4 ▸ List.mem_map_of_mem Prod.fst hq)

/-! Round trip of one item through format and re-parse. -/

lemma head_no_semi (R : Str) (hr : ∀ c ∈ R, c ≠ ';' ∧ c ≠ ',') :
    ';' ∉ '<' :: (R ++ ['>']) := by
  intro hmem
  simp only [List.mem_cons, List.mem_append] at hmem
  rcases hmem with h1 | (h1 | h1)
  · exact absurd h1 (by decide)
  · exact (hr _ h1).1 rfl
  · rcases h1 with h2 | h2
    · exact absurd h2 (by decide)
    · simp at h2

lemma item_fromStr_format (U : UriSys) (it : LinkItem U)
    (hu : U.parse (U.render it.uri) = some it.uri)
    (hr : ∀ c ∈ U.render it.uri, c ≠ ';' ∧ c ≠ ',')
    (hkeys : (it.params.map Prod.fst).Nodup)
    (halnum : ∀ p ∈ it.params, alnumPair p) :
    LinkItem.fromStr U (LinkItem.format U it) = .ok it := by
  obtain ⟨uri, ps⟩ := it
  simp only at hu hr hkeys halnum
  cases ps with
  | nil =>
    have hshape : LinkItem.format U ⟨uri, []⟩ = '<' :: (U.render uri ++ ['>']) := by
      simp [LinkItem.format]
    have hsplit : splitOnce ';' ('<' :: (U.render uri ++ ['>'])) = none :=
      splitOnce_eq_none ';' _ (head_no_semi _ hr)
    simp only [LinkItem.fromStr, hsplit, hshape, fromStrParts, stripLead_cons,
      stripTrail_snoc, hu]
  | cons p rest =>
    have hshape : LinkItem.format U ⟨uri, p :: rest⟩
        = ('<' :: (U.render uri ++ ['>']))
          ++ ';' :: (fragOf p ++ (rest.map paramText).flatten) := by
      simp [LinkItem.format, paramText_eq_fragOf]
    have hsplit : splitOnce ';' (('<' :: (U.render uri ++ ['>']))
          ++ ';' :: (fragOf p ++ (rest.map paramText).flatten))
        = some ('<' :: (U.render uri ++ ['>']), fragOf p ++ (rest.map paramText).flatten) :=
      splitOnce_append ';' _ _ (head_no_semi _ hr)
    have hfrags : parseParamsAux [] ((p :: rest).map fragOf) = .ok ([] ++ p :: rest) :=
      parseParamsAux_frags (p :: rest) [] halnum (by simp) hkeys
    simp only [List.nil_append] at hfrags
    simp only [LinkItem.fromStr, hshape, hsplit, fromStrParts, stripLead_cons,
      stripTrail_snoc, hu, splitAll_semi_block p rest halnum, hfrags]

lemma item_format_comma_free (U : UriSys) (it : LinkItem U)
    (hr : ∀ c ∈ U.render it.uri, c ≠ ';' ∧ c ≠ ',')
    (halnum : ∀ p ∈ it.params, alnumPair p) :
    ',' ∉ LinkItem.format U it := by
  intro hmem
  simp only [LinkItem.format, List.mem_cons, List.mem_append, List.mem_flatten,
    List.mem_map] at hmem
  rcases hmem with h1 | (h1 | (h1 | h1))
  · exact absurd h1 (by decide)
  · exact (hr _ h1).2 rfl
  · exact absurd h1 (by decide)
  · obtain ⟨l, ⟨q, hq, rfl⟩, hmem2⟩ := h1
    have hq2 := halnum q hq
    simp only [paramText, List.mem_cons, List.mem_append] at hmem2
    rcases hmem2 with h2 | (h2 | (h2 | h2))
    · exact absurd h2 (by decide)
    · exact absurd h2 (by decide)
    · exact (alnum_ne_special (hq2.1 _ h2)).2.1 rfl
    · rcases h2 with h3 | h3
      · exact absurd h3 (by decide)
      · exact (alnum_ne_special (hq2.2 _ h3)).2.1 rfl

/-! Link-level splitting and collecting lemmas. -/

lemma joinComma_splitAll (segs : List Str) (hne : segs ≠ [])
    (hcf : ∀ seg ∈ segs, ',' ∉ seg) :
    splitAll ',' (joinComma segs) = segs := by
  induction segs with
  | nil => exact absurd rfl hne
  | cons x xs ih =>
    cases xs with
    | nil =>
      simp only [joinComma]
      exact splitAll_no_sep ',' x (hcf x (List.mem_cons_self x []))
    | cons y ys =>
      simp only [joinComma]
      rw [splitAll_append ',' x _ (hcf x (List.mem_cons_self x (y :: ys))),
        ih (by simp) (fun seg hseg => hcf seg (List.mem_cons_of_mem x hseg))]

lemma mapCollect_format_ok (U : UriSys) (its : List (LinkItem U))
    (h : ∀ it ∈ its, LinkItem.fromStr U (LinkItem.format U it) = .ok it) :
    mapCollect (LinkItem.fromStr U) (its.map (LinkItem.format U)) = .ok its := by
  induction its with
  | nil => rfl
  | cons it rest ih =>
    simp only [List.map_cons, mapCollect, h it (List.mem_cons_self it rest),
      ih (fun r hr => h r (List.mem_cons_of_mem it hr))]

lemma mapCollect_forall2 (U : UriSys) (segs : List Str) (its : List (LinkItem U))
    (h : List.Forall₂ (fun seg it => LinkItem.fromStr U seg = .ok it) segs its) :
    mapCollect (LinkItem.fromStr U) segs = .ok its := by
  induction h with
  | nil => rfl
  | cons hone _ ih => simp only [mapCollect, hone, ih]

lemma mapCollect_error (U : UriSys) (xs : List Str) (seg : Str)
    (hmem : seg ∈ xs) (herr : LinkItem.fromStr U seg = .error .mk) :
    mapCollect (LinkItem.fromStr U) xs = .error .mk := by
  induction xs with
  | nil => simp at hmem
  | cons x rest ih =>
    rcases List.mem_cons.mp hmem with h1 | h1
    · subst h1
      simp only [mapCollect, herr]
    · cases h2 : LinkItem.fromStr U x with
      | error e =>
        cases e
        simp only [mapCollect, h2]
      | ok a =>
        simp only [mapCollect, h2, ih h1]

lemma mapCollect_ok_length (U : UriSys) (f : Str → Except InvalidLink (LinkItem U))
    (xs : List Str) (ys : List (LinkItem U)) (h : mapCollect f xs = .ok ys) :
    ys.length = xs.length := by
  induction xs generalizing ys with
  | nil =>
    simp only [mapCollect] at h
    injection h with h2
    subst h2
    rfl
  | cons x rest ih =>
    simp only [mapCollect] at h
    cases h2 : f x with
    | error e => rw [h2] at h; exact absurd h (by simp)
    | ok a =>
      rw [h2] at h
      cases h3 : mapCollect f rest with
      | error e => rw [h3] at h; exact absurd h (by simp)
      | ok bs =>
        rw [h3] at h
        injection h with h4
        subst h4
        simp [ih bs h3]

lemma link_fromStr_format (U : UriSys) (l : Link U) (hne : l.items ≠ [])
    (hu : ∀ it ∈ l.items, U.parse (U.render it.uri) = some it.uri)
    (hr : ∀ it ∈ l.items, ∀ c ∈ U.render it.uri, c ≠ ';' ∧ c ≠ ',')
    (hkeys : ∀ it ∈ l.items, (it.params.map Prod.fst).Nodup)
    (halnum : ∀ it ∈ l.items, ∀ p ∈ it.params, alnumPair p) :
    Link.fromStr U (Link.format U l) = .ok l := by
  obtain ⟨items⟩ := l
  simp only at hne hu hr hkeys halnum
  have hsegs : splitAll ',' (joinComma (items.map (LinkItem.format U)))
      = items.map (LinkItem.format U) := by
    refine joinComma_splitAll _ (by simpa using hne) ?_
    intro seg hseg
    obtain ⟨it, hit, rfl⟩ := List.mem_map.mp hseg
    exact item_format_comma_free U it (hr it hit) (halnum it hit)
  have hcollect : mapCollect (LinkItem.fromStr U) (items.map (LinkItem.format U))
      = .ok items := by
    refine mapCollect_format_ok U items ?_
    intro it hit
    exact item_fromStr_format U it (hu it hit) (hr it hit) (hkeys it hit) (halnum it hit)
  simp only [Link.fromStr, Link.format, hsegs, hcollect]

/-! Inversion lemmas about successful parses. -/

lemma insertParam_key_prop (P : Str → Prop) (acc : List (Str × Str)) (k v : Str)
    (h1 : ∀ p ∈ acc, P p.1) (h2 : P k) :
    ∀ p ∈ insertParam acc k v, P p.1 := by
  intro p hp
  unfold insertParam at hp
  split at hp
  · obtain ⟨q, hq, hqe⟩ := List.mem_map.mp hp
    split at hqe
    · cases hqe; exact h2
    · cases hqe; exact h1 _ hq
  · rcases List.mem_append.mp hp with hone | hone
    · exact h1 p hone
    · have he : p = (k, v) := by simpa using hone
      subst he
      exact h2

lemma parseParamsAux_no_eq (frags : List Str) :
    ∀ acc ps, parseParamsAux acc frags = .ok ps →
      (∀ p ∈ acc, '=' ∉ p.1) → ∀ p ∈ ps, '=' ∉ p.1 := by
  induction frags with
  | nil =>
    intro acc ps h hacc
    injection h with h2
    subst h2
    exact hacc
  | cons frag rest ih =>
    intro acc ps h hacc
    simp only [parseParamsAux] at h
    cases h2 : splitOnce '=' (trimStr frag) with
    | none => rw [h2] at h; exact absurd h (by simp)
    | some nd =>
      obtain ⟨name, data⟩ := nd
      rw [h2] at h
      exact ih (insertParam acc name data) ps h
        (insertParam_key_prop (fun a => '=' ∉ a) acc name data hacc
          (splitOnce_not_mem '=' _ _ _ h2))

lemma fromStrParts_no_eq (U : UriSys) (link : Str) (parameters : Option Str)
    (it : LinkItem U) (h : fromStrParts U link parameters = .ok it) :
    ∀ p ∈ it.params, '=' ∉ p.1 := by
  unfold fromStrParts at h
  split at h
  · exact absurd h (by simp)
  · split at h
    · exact absurd h (by simp)
    · split at h
      · exact absurd h (by simp)
      · split at h
        · injection h with h4
          subst h4
          simp
        · split at h
          · exact absurd h (by simp)
          · injection h with h4
            subst h4
            rename_i tail2 x2 ps2 hps
            exact parseParamsAux_no_eq (splitAll ';' tail2) [] ps2 hps (by simp)

/-! The claims. -/

/-- C3 (counterexample): the segment `<http://x>; =v` parses successfully
and its parameter map has an entry whose name is empty, contrary to the
claim that parameter names are always non-empty. -/
theorem c3_counterexample :
    LinkItem.fromStr specUri (str "<http://x>; =v") = .ok ⟨str "http://x", [([], str "v")]⟩
    ∧ LinkItem.param (U := specUri) ⟨str "http://x", [([], str "v")]⟩ [] = some (str "v") := by
  exact ⟨rfl, rfl⟩

/-- C3 (amended): for every input string on which `LinkItem::from_str`
succeeds, every entry of the resulting parameter map has a name that
contains no `=` character (the name is the possibly empty text before
the first `=` of its trimmed fragment). -/
theorem c3_theorem (U : UriSys) (s : Str) (it : LinkItem U)
    (h : LinkItem.fromStr U s = .ok it) : ∀ p ∈ it.params, '=' ∉ p.1 := by
  unfold LinkItem.fromStr at h
  cases h1 : splitOnce ';' s with
  | none =>
    rw [h1] at h
    exact fromStrParts_no_eq U s none it h
  | some ab =>
    obtain ⟨a, b⟩ := ab
    rw [h1] at h
    exact fromStrParts_no_eq U a (some b) it h

/-- C3 (witness): the amended theorem applied to the parse of
`<http://x>; a=1` and its single parameter entry. -/
theorem c3_witness : ('=' : Char) ∉ str "a" :=
  c3_theorem specUri (str "<http://x>; a=1") ⟨str "http://x", [(str "a", str "1")]⟩ rfl
    (str "a", str "1") (List.mem_cons_self _ _)

/-- C7: formatting a Link with zero items yields the empty string, while
parsing the empty string fails with InvalidLink (the empty input is one
empty segment that fails the bracket check). -/
theorem c7_theorem (U : UriSys) :
    Link.format U ⟨[]⟩ = str "" ∧ Link.fromStr U (str "") = .error .mk :=
  ⟨rfl, rfl⟩

/-- C7 (witness): the boundary behavior evaluated at the concrete URI
sub-system instance. -/
theorem c7_witness :
    Link.format specUri ⟨[]⟩ = str "" ∧ Link.fromStr specUri (str "") = .error .mk :=
  c7_theorem specUri

/-- C10: every successfully parsed Link contains at least one item:
splitting on `,` always yields at least one segment and every segment
must parse. -/
theorem c10_theorem (U : UriSys) (s : Str) (l : Link U)
    (h : Link.fromStr U s = .ok l) : l.items ≠ [] := by
  unfold Link.fromStr at h
  cases h1 : mapCollect (LinkItem.fromStr U) (splitAll ',' s) with
  | error e => rw [h1] at h; exact absurd h (by simp)
  | ok items =>
    rw [h1] at h
    injection h with h2
    subst h2
    intro h3
    have h4 : items.length = (splitAll ',' s).length :=
      mapCollect_ok_length U _ _ _ h1
    have h5 : items = [] := h3
    rw [h5] at h4
    cases h6 : splitAll ',' s with
    | nil => exact splitAll_ne_nil ',' s h6
    | cons a rest => rw [h6] at h4; simp at h4

/-- C10 (witness): the theorem applied to the parse of `<a>`. -/
theorem c10_witness : (⟨[⟨str "a", []⟩]⟩ : Link specUri).items ≠ [] :=
  c10_theorem specUri (str "<a>") ⟨[⟨str "a", []⟩]⟩ rfl

/-- C8: decode fails with the invalid signal on an empty value iterator;
otherwise it uses only the first value (further values never change the
result), fails if that value is not text-safe, and otherwise returns
exactly the result of `Link::from_str` on that text with InvalidLink
translated to the invalid-value error. -/
theorem c8_theorem (U : UriSys) :
    Link.decode U ([] : List HeaderVal) = .error .invalid
    ∧ (∀ (v : HeaderVal) (rest : List HeaderVal),
        Link.decode U (v :: rest) = Link.decode U [v])
    ∧ (∀ (v : HeaderVal) (rest : List HeaderVal), headerValueToStr v = none →
        Link.decode U (v :: rest) = .error .invalid)
    ∧ (∀ (v : HeaderVal) (rest : List HeaderVal) (s : Str), headerValueToStr v = some s →
        Link.decode U (v :: rest) =
          match Link.fromStr U s with
          | .error _ => .error .invalid
          | .ok l => .ok l) := by
  refine ⟨rfl, fun v rest => rfl, fun v rest h => ?_, fun v rest s h => ?_⟩
  · simp only [Link.decode, h]
  · simp only [Link.decode, h]

/-- C8 (witness): the decode contract evaluated at concrete header
values. -/
theorem c8_witness :
    Link.decode specUri ([] : List HeaderVal) = .error .invalid
    ∧ Link.decode specUri [str "<a>", str "<b>"] = Link.decode specUri [str "<a>"]
    ∧ Link.decode specUri [['\x01'], str "<b>"] = .error .invalid
    ∧ Link.decode specUri [str "<a>", ['\x01']] =
        match Link.fromStr specUri (str "<a>") with
        | .error _ => .error .invalid
        | .ok l => .ok l :=
  ⟨(c8_theorem specUri).1, (c8_theorem specUri).2.1 (str "<a>") [str "<b>"],
    (c8_theorem specUri).2.2.1 ['\x01'] [str "<b>"] rfl,
    (c8_theorem specUri).2.2.2 (str "<a>") [['\x01']] (str "<a>") rfl⟩

/-- C5: when the same parameter name occurs multiple times in one
segment, the last occurrence wins: `<http://x>; a=1; a=2` parses and the
resulting item has `param "a" = some "2"`. -/
theorem c5_theorem (U : UriSys) (u : U.Uri) (hu : U.parse (str "http://x") = some u) :
    LinkItem.fromStr U (str "<http://x>; a=1; a=2") = .ok ⟨u, [(str "a", str "2")]⟩
    ∧ LinkItem.param (U := U) ⟨u, [(str "a", str "2")]⟩ (str "a") = some (str "2") := by
  constructor
  · show (match U.parse (str "http://x") with
      | none => (Except.error InvalidLink.mk : Except InvalidLink (LinkItem U))
      | some uri => Except.ok ⟨uri, [(str "a", str "2")]⟩) = Except.ok ⟨u, [(str "a", str "2")]⟩
    rw [hu]
  · rfl

/-- C5 (witness): the duplicate-key behavior at the concrete URI
sub-system instance. -/
theorem c5_witness :
    specUri.parse (str "http://x") = some (str "http://x")
    ∧ LinkItem.fromStr specUri (str "<http://x>; a=1; a=2")
        = .ok ⟨str "http://x", [(str "a", str "2")]⟩
    ∧ LinkItem.param (U := specUri) ⟨str "http://x", [(str "a", str "2")]⟩ (str "a")
        = some (str "2") :=
  ⟨rfl, (c5_theorem specUri (str "http://x") rfl).1, (c5_theorem specUri (str "http://x") rfl).2⟩

/-- C6: parsing `<http://x>; rel=next; title=Foo` succeeds, the URI is
the parse of `http://x`, `param "rel" = some "next"`,
`param "title" = some "Foo"`, and `param "missing" = none`. -/
theorem c6_theorem (U : UriSys) (u : U.Uri) (hu : U.parse (str "http://x") = some u) :
    LinkItem.fromStr U (str "<http://x>; rel=next; title=Foo")
      = .ok ⟨u, [(str "rel", str "next"), (str "title", str "Foo")]⟩
    ∧ LinkItem.param (U := U) ⟨u, [(str "rel", str "next"), (str "title", str "Foo")]⟩
        (str "rel") = some (str "next")
    ∧ LinkItem.param (U := U) ⟨u, [(str "rel", str "next"), (str "title", str "Foo")]⟩
        (str "title") = some (str "Foo")
    ∧ LinkItem.param (U := U) ⟨u, [(str "rel", str "next"), (str "title", str "Foo")]⟩
        (str "missing") = none := by
  refine ⟨?_, rfl, rfl, rfl⟩
  show (match U.parse (str "http://x") with
    | none => (Except.error InvalidLink.mk : Except InvalidLink (LinkItem U))
    | some uri => Except.ok ⟨uri, [(str "rel", str "next"), (str "title", str "Foo")]⟩)
    = Except.ok ⟨u, [(str "rel", str "next"), (str "title", str "Foo")]⟩
  rw [hu]

/-- C6 (witness): the parameter lookup behavior at the concrete URI
sub-system instance. -/
theorem c6_witness :
    specUri.parse (str "http://x") = some (str "http://x")
    ∧ LinkItem.fromStr specUri (str "<http://x>; rel=next; title=Foo")
        = .ok ⟨str "http://x", [(str "rel", str "next"), (str "title", str "Foo")]⟩
    ∧ LinkItem.param (U := specUri)
        ⟨str "http://x", [(str "rel", str "next"), (str "title", str "Foo")]⟩
        (str "missing") = none :=
  ⟨rfl, (c6_theorem specUri (str "http://x") rfl).1,
    (c6_theorem specUri (str "http://x") rfl).2.2.2⟩

/-- C9: each malformed input fails with InvalidLink: a head missing the
brackets, an unparsable URI, a parameter fragment without `=`, a
trailing `;`; and a failing segment anywhere in the input makes the
whole `Link::from_str` fail. -/
theorem c9_theorem (U : UriSys) (hbad : U.parse (str "not a uri !!") = none) :
    LinkItem.fromStr U (str "http://x") = .error .mk
    ∧ LinkItem.fromStr U (str "<not a uri !!>") = .error .mk
    ∧ LinkItem.fromStr U (str "<http://x>; rel") = .error .mk
    ∧ LinkItem.fromStr U (str "<http://x>; a=1;") = .error .mk
    ∧ ∀ (s seg : Str), seg ∈ splitAll ',' s → LinkItem.fromStr U seg = .error .mk →
        Link.fromStr U s = .error .mk := by
  refine ⟨rfl, ?_, ?_, ?_, ?_⟩
  · show (match U.parse (str "not a uri !!") with
      | none => (Except.error InvalidLink.mk : Except InvalidLink (LinkItem U))
      | some uri => Except.ok ⟨uri, []⟩) = Except.error InvalidLink.mk
    rw [hbad]
  · show (match U.parse (str "http://x") with
      | none => (Except.error InvalidLink.mk : Except InvalidLink (LinkItem U))
      | some uri => Except.error InvalidLink.mk) = Except.error InvalidLink.mk
    cases U.parse (str "http://x") with
    | none => rfl
    | some u => rfl
  · show (match U.parse (str "http://x") with
      | none => (Except.error InvalidLink.mk : Except InvalidLink (LinkItem U))
      | some uri => Except.error InvalidLink.mk) = Except.error InvalidLink.mk
    cases U.parse (str "http://x") with
    | none => rfl
    | some u => rfl
  · intro s seg hmem herr
    simp only [Link.fromStr, mapCollect_error U _ seg hmem herr]

/-- C9 (witness): the malformed rejections at the concrete URI
sub-system instance, including a whole-Link failure caused by one bad
segment. -/
theorem c9_witness :
    specUri.parse (str "not a uri !!") = none
    ∧ LinkItem.fromStr specUri (str "http://x") = .error .mk
    ∧ LinkItem.fromStr specUri (str "<not a uri !!>") = .error .mk
    ∧ LinkItem.fromStr specUri (str "<http://x>; rel") = .error .mk
    ∧ LinkItem.fromStr specUri (str "<http://x>; a=1;") = .error .mk
    ∧ Link.fromStr specUri (str "<a>,http://x") = .error .mk := by
  have h := c9_theorem specUri rfl
  exact ⟨rfl, h.1, h.2.1, h.2.2.1, h.2.2.2.1,
    h.2.2.2.2 (str "<a>,http://x") (str "http://x") (by decide) h.1⟩

/-- C4: parsing a comma-separated input whose segments all parse
preserves the textual segment order as the item order; in particular
`<a>,<b>,<c>` yields exactly the three items `a`, `b`, `c` in order. -/
theorem c4_theorem (U : UriSys) (ua ub uc : U.Uri)
    (ha : U.parse (str "a") = some ua)
    (hb : U.parse (str "b") = some ub)
    (hc : U.parse (str "c") = some uc) :
    (∀ (segs : List Str) (its : List (LinkItem U)), segs ≠ [] →
      (∀ seg ∈ segs, ',' ∉ seg) →
      List.Forall₂ (fun seg it => LinkItem.fromStr U seg = .ok it) segs its →
      Link.fromStr U (joinComma segs) = .ok ⟨its⟩)
    ∧ Link.fromStr U (str "<a>,<b>,<c>")
        = .ok ⟨[⟨ua, []⟩, ⟨ub, []⟩, ⟨uc, []⟩]⟩ := by
  constructor
  · intro segs its hne hcf hf2
    simp only [Link.fromStr, joinComma_splitAll segs hne hcf,
      mapCollect_forall2 U segs its hf2]
  · have h1 : LinkItem.fromStr U (str "<a>") = .ok ⟨ua, []⟩ := by
      show (match U.parse (str "a") with
        | none => (Except.error InvalidLink.mk : Except InvalidLink (LinkItem U))
        | some uri => Except.ok ⟨uri, []⟩) = Except.ok ⟨ua, []⟩
      rw [ha]
    have h2 : LinkItem.fromStr U (str "<b>") = .ok ⟨ub, []⟩ := by
      show (match U.parse (str "b") with
        | none => (Except.error InvalidLink.mk : Except InvalidLink (LinkItem U))
        | some uri => Except.ok ⟨uri, []⟩) = Except.ok ⟨ub, []⟩
      rw [hb]
    have h3 : LinkItem.fromStr U (str "<c>") = .ok ⟨uc, []⟩ := by
      show (match U.parse (str "c") with
        | none => (Except.error InvalidLink.mk : Except InvalidLink (LinkItem U))
        | some uri => Except.ok ⟨uri, []⟩) = Except.ok ⟨uc, []⟩
      rw [hc]
    have hsegs : splitAll ',' (str "<a>,<b>,<c>") = [str "<a>", str "<b>", str "<c>"] := rfl
    have hmc : mapCollect (LinkItem.fromStr U) [str "<a>", str "<b>", str "<c>"]
        = .ok [⟨ua, []⟩, ⟨ub, []⟩, ⟨uc, []⟩] := by
      simp only [mapCollect, h1, h2, h3]
    simp only [Link.fromStr, hsegs, hmc]

/-- C4 (witness): the ordering behavior at the concrete URI sub-system
instance. -/
theorem c4_witness :
    specUri.parse (str "a") = some (str "a")
    ∧ specUri.parse (str "b") = some (str "b")
    ∧ specUri.parse (str "c") = some (str "c")
    ∧ Link.fromStr specUri (str "<a>,<b>,<c>")
        = .ok ⟨[⟨str "a", []⟩, ⟨str "b", []⟩, ⟨str "c", []⟩]⟩ :=
  ⟨rfl, rfl, rfl, (c4_theorem specUri (str "a") (str "b") (str "c") rfl rfl rfl).2⟩

/-- C2 (counterexample): a Link built through the public interface
(`with_param` with an arbitrary string parameter whose value holds a
control character) makes `Header::encode` fail: the formatted text is
not a valid header value, so the `unwrap` panics (modelled as `none`),
and no value is appended. -/
theorem c2_counterexample :
    Link.encode specUri
      ⟨[LinkItem.withParam specUri (str "http://x") [(str "a", ['\x01'])]]⟩ [] = none := rfl

/-- C2 (amended): `Header::encode` succeeds and appends exactly one
value to the output collection for every Link whose formatted text
consists only of characters allowed in a header value (tab, or code at
least 32 and not 127) — in particular for every Link decoded from a
header value or built from visible-ASCII fields. -/
theorem c2_theorem (U : UriSys) (l : Link U) (values : List HeaderVal)
    (h : ∀ c ∈ Link.format U l, headerValueOkChar c = true) :
    Link.encode U l values = some (values ++ [Link.format U l]) := by
  have hall : (Link.format U l).all headerValueOkChar = true :=
    List.all_eq_true.mpr (fun c hc => h c hc)
  unfold Link.encode headerValueFromStr
  rw [if_pos hall]

/-- C2 (witness): encode evaluated on a concrete well-formed Link
appends exactly one value. -/
theorem c2_witness :
    (∀ c ∈ Link.format specUri ⟨[⟨str "http://x", [(str "rel", str "next")]⟩]⟩,
      headerValueOkChar c = true)
    ∧ Link.encode specUri ⟨[⟨str "http://x", [(str "rel", str "next")]⟩]⟩ []
        = some ([] ++ [Link.format specUri ⟨[⟨str "http://x", [(str "rel", str "next")]⟩]⟩]) :=
  ⟨by decide, c2_theorem specUri ⟨[⟨str "http://x", [(str "rel", str "next")]⟩]⟩ [] (by decide)⟩

/-- C1 (counterexample): the round trip fails as stated at two inputs
covered by the claim: the zero-item Link (all of whose items vacuously
satisfy every constraint) formats to the empty string, which does not
parse back; and a one-item Link whose URI text `a,b` is a valid URI
formats to `<a,b>`, which does not parse back (the comma re-splits the
header). -/
theorem c1_counterexample :
    Link.format specUri ⟨[]⟩ = str ""
    ∧ Link.fromStr specUri (str "") = .error .mk
    ∧ uriOk (str "a,b") = true
    ∧ Link.format specUri ⟨[⟨str "a,b", []⟩]⟩ = str "<a,b>"
    ∧ Link.fromStr specUri (str "<a,b>") = .error .mk :=
  ⟨rfl, rfl, by decide, rfl, rfl⟩

/-- C1 (amended): for every Link with at least one item, whose items'
rendered URI texts parse back to the same URI and contain no `;` or `,`,
and whose parameter names and values are ASCII alphanumeric (the
parameter keys being unique, as the HashMap guarantees), formatting and
then parsing succeeds and yields a Link with the same items in the same
order and the same parameter-name-to-value mapping for each item. -/
theorem c1_theorem (U : UriSys) (l : Link U) (hne : l.items ≠ [])
    (hu : ∀ it ∈ l.items, U.parse (U.render it.uri) = some it.uri)
    (hr : ∀ it ∈ l.items, ∀ c ∈ U.render it.uri, c ≠ ';' ∧ c ≠ ',')
    (hkeys : ∀ it ∈ l.items, (it.params.map Prod.fst).Nodup)
    (halnum : ∀ it ∈ l.items, ∀ p ∈ it.params, alnumPair p) :
    ∃ l2 : Link U, Link.fromStr U (Link.format U l) = .ok l2
      ∧ l2.items.length = l.items.length
      ∧ ∀ (i : Nat) (h1 : i < l2.items.length) (h2 : i < l.items.length),
          (l2.items.get ⟨i, h1⟩).uri = (l.items.get ⟨i, h2⟩).uri
          ∧ ∀ name : Str,
              (l2.items.get ⟨i, h1⟩).param name = (l.items.get ⟨i, h2⟩).param name := by
  refine ⟨l, link_fromStr_format U l hne hu hr hkeys halnum, rfl, ?_⟩
  intro i h1 h2
  exact ⟨rfl, fun name => rfl⟩

/-- C1 (witness): the round trip evaluated on a concrete one-item Link
with one parameter. -/
theorem c1_witness :
    ((⟨[⟨str "http://x", [(str "rel", str "next")]⟩]⟩ : Link specUri).items ≠ [])
    ∧ (∀ it ∈ (⟨[⟨str "http://x", [(str "rel", str "next")]⟩]⟩ : Link specUri).items,
        specUri.parse (specUri.render it.uri) = some it.uri)
    ∧ (∀ it ∈ (⟨[⟨str "http://x", [(str "rel", str "next")]⟩]⟩ : Link specUri).items,
        ∀ c ∈ specUri.render it.uri, c ≠ ';' ∧ c ≠ ',')
    ∧ (∀ it ∈ (⟨[⟨str "http://x", [(str "rel", str "next")]⟩]⟩ : Link specUri).items,
        (it.params.map Prod.fst).Nodup)
    ∧ (∀ it ∈ (⟨[⟨str "http://x", [(str "rel", str "next")]⟩]⟩ : Link specUri).items,
        ∀ p ∈ it.params, alnumPair p)
    ∧ ∃ l2 : Link specUri,
        Link.fromStr specUri
          (Link.format specUri (⟨[⟨str "http://x", [(str "rel", str "next")]⟩]⟩ : Link specUri))
          = .ok l2
        ∧ l2.items.length
            = (⟨[⟨str "http://x", [(str "rel", str "next")]⟩]⟩ : Link specUri).items.length :=
  ⟨by simp, by decide, by decide, by decide, by decide, by
    obtain ⟨l2, he, hlen, hrest⟩ :=
      c1_theorem specUri ⟨[⟨str "http://x", [(str "rel", str "next")]⟩]⟩
        (by simp) (by decide) (by decide) (by decide) (by decide)
    exact ⟨l2, he, hlen⟩⟩

end LinkHeader
